import Mathlib

/-!
Shallow embedding of `server.go` from bcampbell/eventsource.

The Go program is a single dispatcher goroutine (`Server.run`) owning two maps:
`subs : map[string]map[*subscription]struct{}` (channel name to the set of live
subscriptions) and `repos : map[string]Repository` (channel name to the history
source used for replay).  The dispatcher consumes five kinds of messages
(registrations, unregister, pub, subs, quit), and each subscription carries an
unbuffered `out` channel (its delivery path) onto which the dispatcher's
publish case and concurrent `replay` goroutines push events.

The embedding models the dispatcher loop plus the replay goroutines as one
small-step transition system.  Subscriptions are identified by a natural
number (Go pointer identity); their immutable fields (`channel`,
`lastEventId`) live in a fixed environment, while the mutable delivery path is
part of the state.  A delivery path records the full sequence of events ever
pushed onto it, each tagged with its producer (live publish or a particular
replay task), together with Go channel-close bookkeeping.  Go semantics of
channel operations are made explicit: sending on a closed channel and closing
a closed channel are runtime panics, modelled as `none`.
-/

namespace Eventsource

/-- An event.  `server.go` treats events as opaque values (the `Event`
interface); only identity matters here, so we carry the id string. -/
structure Event where
  id : String
deriving DecidableEq

/-- The producer that pushed a given value onto a subscription's `out`
channel: the dispatcher's publish case, or the replay goroutine with the
given task identifier. -/
inductive Origin where
  | live : Origin
  | replayTask : Nat → Origin
deriving DecidableEq

/-- The state of one subscription's `out` channel (its delivery path):
every value ever sent on it in order, whether it has been closed, and how
many times `close` was executed on it. -/
structure Path where
  buf : List (Origin × Event)
  closed : Bool
  closeCount : Nat
deriving DecidableEq

/-- Go semantics of `ch <- v`: succeeds on an open channel, panics (`none`)
on a closed one. -/
def chanSend (p : Path) (o : Origin) (e : Event) : Option Path :=
  if p.closed then none
  else some { p with buf := p.buf ++ [(o, e)] }

/-- Go semantics of `close(ch)`: marks an open channel closed, panics
(`none`) on an already-closed one. -/
def chanClose (p : Path) : Option Path :=
  if p.closed then none
  else some { p with closed := true, closeCount := p.closeCount + 1 }

/-- The immutable fields of Go's `subscription` struct; the mutable `out`
channel is kept separately in the server state, keyed by subscription id. -/
structure Subscription where
  channel : String
  lastEventId : String
deriving DecidableEq

/-- Assignment of subscription ids (Go pointer identity) to their immutable
fields. -/
def SubEnv : Type := Nat → Subscription

/-- The `Repository.Replay(channel, lastEventId)` method of each registered
repository, identified by a repository id: the finite ordered sequence of
historical events after `lastEventId` on `channel`. -/
def ReplayFn : Type := Nat → String → String → List Event

/-- One `go replay(repo, sub)` goroutine: the subscription, the repository
bound at spawn time, the arguments of the `Replay` call, and the events it
has not yet pushed. -/
structure Task where
  tid : Nat
  subId : Nat
  repoId : Nat
  channel : String
  lastSeenId : String
  remaining : List Event
deriving DecidableEq

/-- The dispatcher's state: the two routing maps of `run` (the subscription
map as an association list mirroring the Go map's key set, the repository map
as a lookup function), the delivery path of every subscription id, the replay
goroutines spawned so far, a fresh task id counter, and whether `run` has
returned. -/
structure ServerState where
  subs : List (String × Finset Nat)
  repos : String → Option Nat
  paths : Nat → Path
  tasks : List Task
  nextTid : Nat
  stopped : Bool

/-- Go map read `subs[c]` followed by iteration: the set of members under
key `c`, the empty set when the key is absent (a nil map). -/
def membersOf (m : List (String × Finset Nat)) (c : String) : Finset Nat :=
  match m.find? fun kv => kv.1 == c with
  | some kv => kv.2
  | none => ∅

/-- Enumerate a multiset of subscription ids in ascending order, by a
structurally recursive insertion sort so that concrete executions reduce
definitionally. -/
def sortMultiset (m : Multiset Nat) : List Nat :=
  Quot.liftOn m (fun l => l.insertionSort (· ≤ ·)) fun l₁ l₂ h =>
    List.eq_of_perm_of_sorted
      ((List.perm_insertionSort _ l₁).trans
        (h.trans (List.perm_insertionSort _ l₂).symm))
      (List.sorted_insertionSort _ l₁) (List.sorted_insertionSort _ l₂)

/-- One admissible iteration order over a Go map's key set: its members in
ascending order. -/
def sortMembers (s : Finset Nat) : List Nat := sortMultiset s.val

/-- The subscribe case's map update: `if _, ok := subs[ch]; !ok { subs[ch] =
make(...) }; subs[ch][sub] = struct{}{}`. -/
def mapAdd (m : List (String × Finset Nat)) (c : String) (i : Nat) :
    List (String × Finset Nat) :=
  if m.any fun kv => kv.1 == c then
    m.map fun kv => if kv.1 == c then (kv.1, insert i kv.2) else kv
  else
    m ++ [(c, {i})]

/-- The unregister case: `delete(subs[sub.channel], sub)`; a no-op both when
the channel key is absent (delete on a nil map) and when the subscription is
not in the set. -/
def mapDelete (m : List (String × Finset Nat)) (c : String) (i : Nat) :
    List (String × Finset Nat) :=
  m.map fun kv => if kv.1 == c then (kv.1, kv.2.erase i) else kv

/-- Push one event onto the delivery paths of a list of subscription ids in
order: the inner loop `for s := range subs[c] { s.out <- pub.event }`.
Panics (`none`) if any target path is closed. -/
def pushAll (o : Origin) (e : Event) :
    (Nat → Path) → List Nat → Option (Nat → Path)
  | paths, [] => some paths
  | paths, i :: rest =>
    match chanSend (paths i) o e with
    | none => none
    | some p => pushAll o e (fun j => if j = i then p else paths j) rest

/-- The loop body of the publish case of `run`: for each named channel, push
the event to every current member of that channel's set.  Go map iteration
order is unspecified; we iterate members in ascending id order, one
admissible order.  Only the delivery paths are touched. -/
def publishPaths (e : Event) (subs : List (String × Finset Nat)) :
    (Nat → Path) → List String → Option (Nat → Path)
  | paths, [] => some paths
  | paths, c :: rest =>
    match pushAll Origin.live e paths ((sortMembers (membersOf subs c))) with
    | none => none
    | some ps => publishPaths e subs ps rest

/-- The publish case of `run`. -/
def doPublish (s : ServerState) (channels : List String) (e : Event) :
    Option ServerState :=
  (publishPaths e s.subs s.paths channels).map fun ps => { s with paths := ps }

/-- Close the delivery paths of a list of subscription ids in order; panics
(`none`) if one of them is already closed (Go's double close). -/
def closeAll : (Nat → Path) → List Nat → Option (Nat → Path)
  | paths, [] => some paths
  | paths, i :: rest =>
    match chanClose (paths i) with
    | none => none
    | some p => closeAll (fun j => if j = i then p else paths j) rest

/-- The quit case of `run`: `for _, sub := range subs { for s := range sub {
close(s.out) } }`. -/
def closeTable : (Nat → Path) → List (String × Finset Nat) → Option (Nat → Path)
  | paths, [] => some paths
  | paths, kv :: rest =>
    match closeAll paths (sortMembers kv.2) with
    | none => none
    | some ps => closeTable ps rest

/-- The subscribe case of `run`: add the subscription to its channel's set;
then, if its `lastEventId` is non-empty and a repository is registered for
the channel, spawn one replay goroutine bound to that subscription, that
repository and that `lastEventId`. -/
def doSubscribe (env : SubEnv) (renv : ReplayFn) (s : ServerState) (i : Nat) :
    ServerState :=
  if (env i).lastEventId.length > 0 then
    match s.repos (env i).channel with
    | some r =>
      { s with
        subs := mapAdd s.subs (env i).channel i,
        tasks := s.tasks ++
          [⟨s.nextTid, i, r, (env i).channel, (env i).lastEventId,
            renv r (env i).channel (env i).lastEventId⟩],
        nextTid := s.nextTid + 1 }
    | none => { s with subs := mapAdd s.subs (env i).channel i }
  else { s with subs := mapAdd s.subs (env i).channel i }

/-- One iteration of a `replay` goroutine's loop body `sub.out <- ev`: the
task with the given id pushes its next pending historical event onto its
subscription's delivery path.  Pushing onto a closed path panics (`none`);
a task that is absent or exhausted makes no step. -/
def doReplayStep (s : ServerState) (tid : Nat) : Option ServerState :=
  match s.tasks.find? fun t => t.tid == tid with
  | none => some s
  | some t =>
    match t.remaining with
    | [] => some s
    | e :: rest =>
      match chanSend (s.paths t.subId) (Origin.replayTask t.tid) e with
      | none => none
      | some p =>
        some { s with
          paths := fun j => if j = t.subId then p else s.paths j,
          tasks := s.tasks.map fun u =>
            if u.tid == tid then { u with remaining := rest } else u }

/-- The messages of the system: the five dispatcher mailbox cases of `run`
(named after the `Server` struct's channels) plus one step of a replay
goroutine, which runs concurrently with the dispatcher. -/
inductive Msg where
  | register : String → Nat → Msg
  | unregister : Nat → Msg
  | publish : List String → Event → Msg
  | subscribe : Nat → Msg
  | quit : Msg
  | replayStep : Nat → Msg

/-- One step of the system.  After `run` has returned (`stopped`), dispatcher
messages are never serviced and leave the state unchanged, while replay
goroutines keep running. -/
def step (env : SubEnv) (renv : ReplayFn) (s : ServerState) :
    Msg → Option ServerState
  | Msg.register ch r =>
    if s.stopped then some s
    else some { s with repos := fun c => if c = ch then some r else s.repos c }
  | Msg.unregister i =>
    if s.stopped then some s
    else some { s with subs := mapDelete s.subs (env i).channel i }
  | Msg.publish channels e =>
    if s.stopped then some s else doPublish s channels e
  | Msg.subscribe i =>
    if s.stopped then some s else some (doSubscribe env renv s i)
  | Msg.quit =>
    if s.stopped then some s
    else (closeTable s.paths s.subs).map fun ps =>
      { s with paths := ps, stopped := true }
  | Msg.replayStep tid => doReplayStep s tid

/-- Execute a sequence of steps; `none` as soon as any step panics. -/
def run (env : SubEnv) (renv : ReplayFn) :
    ServerState → List Msg → Option ServerState
  | s, [] => some s
  | s, m :: rest =>
    match step env renv s m with
    | none => none
    | some s' => run env renv s' rest

/-- The state `NewServer` starts `run` with: empty maps, no goroutines, every
path open and never closed. -/
def initState : ServerState :=
  { subs := []
    repos := fun _ => none
    paths := fun _ => { buf := [], closed := false, closeCount := 0 }
    tasks := []
    nextTid := 0
    stopped := false }

/-- A state the server can be in after some interleaving of dispatcher
messages and replay-goroutine steps, none of which panicked. -/
def Reachable (env : SubEnv) (renv : ReplayFn) (s : ServerState) : Prop :=
  ∃ msgs : List Msg, run env renv initState msgs = some s

/-- Invariant of every reachable server state: duplicate-free channel keys,
channel-consistent membership, paths untouched by `close` while the
dispatcher runs, task ids below the fresh counter and duplicate-free,
replay-tagged buffer entries only from already-spawned tasks, tasks bound to
their subscription's creation-time fields, and each task's pushes so far
followed by its pending events forming exactly its bound history sequence. -/
structure Inv (env : SubEnv) (renv : ReplayFn) (s : ServerState) : Prop where
  keysNodup : (s.subs.map Prod.fst).Nodup
  memChannel : ∀ p ∈ s.subs, ∀ i ∈ p.2, (env i).channel = p.1
  openPaths : s.stopped = false →
    ∀ i, (s.paths i).closed = false ∧ (s.paths i).closeCount = 0
  tidsLt : ∀ t ∈ s.tasks, t.tid < s.nextTid
  tidsNodup : (s.tasks.map Task.tid).Nodup
  bufTids : ∀ i, ∀ pr ∈ (s.paths i).buf, ∀ tid,
    pr.1 = Origin.replayTask tid → tid < s.nextTid
  taskWf : ∀ t ∈ s.tasks, t.channel = (env t.subId).channel ∧
    t.lastSeenId = (env t.subId).lastEventId
  taskProgress : ∀ t ∈ s.tasks,
    (((s.paths t.subId).buf.filter fun pr =>
        pr.1 == Origin.replayTask t.tid).map Prod.snd) ++ t.remaining
      = renv t.repoId t.channel t.lastSeenId

/-! ### Concrete scenario used by the witness checks

Subscription 0 listens on channel "news" with last seen id "5";
subscription 1 listens on channel "sports" with no last seen id.
Repository 0 replays events "6", "7" for ("news", "5"); every other query
yields nothing. -/

def env0 : SubEnv := fun i =>
  if i = 0 then ⟨"news", "5"⟩ else ⟨"sports", ""⟩

def renv0 : ReplayFn := fun r ch last =>
  if r = 0 ∧ ch = "news" ∧ last = "5" then [⟨"6"⟩, ⟨"7"⟩] else []

/-- Register the news repository and connect both subscriptions. -/
def msgs1 : List Msg :=
  [Msg.register "news" 0, Msg.subscribe 0, Msg.subscribe 1]

def w1 : ServerState := (run env0 renv0 initState msgs1).getD initState

/-- Register, subscribe and shut down, leaving the replay task of
subscription 0 with events still to push onto a now-closed path. -/
def msgsBug : List Msg := [Msg.register "news" 0, Msg.subscribe 0, Msg.quit]

def wBug : ServerState := (run env0 renv0 initState msgsBug).getD initState

/-- Register, subscribe and let the replay task run to completion. -/
def msgsDone : List Msg :=
  [Msg.register "news" 0, Msg.subscribe 0, Msg.replayStep 0, Msg.replayStep 0]

def wDone : ServerState := (run env0 renv0 initState msgsDone).getD initState

/-- The finished replay task of the `msgsDone` execution. -/
def tDone : Task := ⟨0, 0, 0, "news", "5", []⟩

/-- Register a repository for "sports", the channel of subscription 1
(whose last seen id is empty). -/
def msgs5 : List Msg := [Msg.register "sports" 1]

def w5 : ServerState := (run env0 renv0 initState msgs5).getD initState

/-! ### Channel-operation lemmas -/

theorem chanSend_open {p : Path} (h : p.closed = false) (o : Origin) (e : Event) :
    chanSend p o e = some { p with buf := p.buf ++ [(o, e)] } := by
  simp [chanSend, h]

theorem chanSend_some {p p' : Path} {o : Origin} {e : Event}
    (h : chanSend p o e = some p') :
    p.closed = false ∧ p'.buf = p.buf ++ [(o, e)] ∧
      p'.closed = p.closed ∧ p'.closeCount = p.closeCount := by
  cases hcl : p.closed with
  | true => simp [chanSend, hcl] at h
  | false =>
    simp only [chanSend, hcl, Bool.false_eq_true, if_neg, ite_false,
      Option.some.injEq] at h
    subst h
    simp

theorem chanClose_open {p : Path} (h : p.closed = false) :
    chanClose p = some { p with closed := true, closeCount := p.closeCount + 1 } := by
  simp [chanClose, h]

theorem chanClose_some {p p' : Path} (h : chanClose p = some p') :
    p.closed = false ∧ p'.buf = p.buf ∧ p'.closed = true ∧
      p'.closeCount = p.closeCount + 1 := by
  cases hcl : p.closed with
  | true => simp [chanClose, hcl] at h
  | false =>
    simp only [chanClose, hcl, Bool.false_eq_true, ite_false,
      Option.some.injEq] at h
    subst h
    simp

/-! ### Sorted-enumeration lemmas -/

theorem mem_sortMultiset {m : Multiset Nat} {i : Nat} :
    i ∈ sortMultiset m ↔ i ∈ m := by
  induction m using Quot.inductionOn with
  | _ l =>
    show i ∈ l.insertionSort (· ≤ ·) ↔ i ∈ (l : Multiset Nat)
    rw [Multiset.mem_coe]
    exact (List.perm_insertionSort (· ≤ ·) l).mem_iff

theorem sortMultiset_nodup {m : Multiset Nat} (h : m.Nodup) :
    (sortMultiset m).Nodup := by
  induction m using Quot.inductionOn with
  | _ l => exact ((List.perm_insertionSort (· ≤ ·) l).nodup_iff).mpr h

theorem mem_sortMembers {s : Finset Nat} {i : Nat} :
    i ∈ sortMembers s ↔ i ∈ s := mem_sortMultiset

theorem sortMembers_nodup (s : Finset Nat) : (sortMembers s).Nodup :=
  sortMultiset_nodup s.nodup

/-! ### Routing-map lemmas -/

theorem mem_membersOf {m : List (String × Finset Nat)} {c : String} {i : Nat}
    (h : i ∈ membersOf m c) : ∃ kv ∈ m, kv.1 = c ∧ i ∈ kv.2 := by
  unfold membersOf at h
  cases hf : m.find? fun kv => kv.1 == c with
  | none => rw [hf] at h; simp at h
  | some kv =>
    rw [hf] at h
    exact ⟨kv, List.mem_of_find?_eq_some hf,
      by simpa using List.find?_some hf, h⟩

/-- Updating the value stored under one key commutes with looking a key up:
the update function keeps every key in place. -/
theorem find?_map_key (f : String × Finset Nat → Finset Nat) (c c' : String)
    (m : List (String × Finset Nat)) :
    (m.map fun kv => if kv.1 == c then (kv.1, f kv) else kv).find?
        (fun kv => kv.1 == c')
      = (m.find? fun kv => kv.1 == c').map
          fun kv => if kv.1 == c then (kv.1, f kv) else kv := by
  rw [List.find?_map]
  have hcomp : ((fun kv : String × Finset Nat => kv.1 == c') ∘
      fun kv => if kv.1 == c then (kv.1, f kv) else kv)
        = fun kv : String × Finset Nat => kv.1 == c' := by
    funext kv
    by_cases h : kv.1 = c <;> simp [Function.comp, h]
  rw [hcomp]

theorem membersOf_mapDelete (m : List (String × Finset Nat)) (c : String)
    (i : Nat) (c' : String) :
    membersOf (mapDelete m c i) c' =
      if c' = c then (membersOf m c').erase i else membersOf m c' := by
  unfold membersOf mapDelete
  rw [find?_map_key (fun kv => kv.2.erase i) c c' m]
  cases hf : m.find? fun kv => kv.1 == c' with
  | none => by_cases h : c' = c <;> simp [h]
  | some kv =>
    have hk : kv.1 = c' := by simpa using List.find?_some hf
    by_cases h : c' = c
    · simp [hk, h]
    · simp [hk, h]

theorem membersOf_mapAdd (m : List (String × Finset Nat)) (c : String)
    (i : Nat) (c' : String) :
    membersOf (mapAdd m c i) c' =
      if c' = c then insert i (membersOf m c) else membersOf m c' := by
  unfold mapAdd
  by_cases hany : (m.any fun kv => kv.1 == c) = true
  · rw [if_pos hany]
    unfold membersOf
    rw [find?_map_key (fun kv => insert i kv.2) c c' m]
    by_cases h : c' = c
    · subst h
      obtain ⟨kv, hkv, hkc⟩ := List.any_eq_true.mp hany
      have hsome : (m.find? fun kv => kv.1 == c').isSome :=
        List.find?_isSome.mpr ⟨kv, hkv, hkc⟩
      cases hf : m.find? fun kv => kv.1 == c' with
      | none => rw [hf] at hsome; simp at hsome
      | some kv' =>
        have hk : kv'.1 = c' := by simpa using List.find?_some hf
        simp [hk]
    · cases hf : m.find? fun kv => kv.1 == c' with
      | none => simp [h]
      | some kv =>
        have hk : kv.1 = c' := by simpa using List.find?_some hf
        simp [hk, h]
  · rw [if_neg hany]
    have hnone : (m.find? fun kv => kv.1 == c) = none := by
      rw [List.find?_eq_none]
      intro kv hkv hc
      exact hany (List.any_eq_true.mpr ⟨kv, hkv, hc⟩)
    unfold membersOf
    rw [List.find?_append]
    by_cases h : c' = c
    · subst h
      simp [hnone]
    · have h' : ¬c = c' := fun hh => h hh.symm
      cases hf : m.find? fun kv => kv.1 == c' with
      | none => simp [h, h']
      | some kv => simp [h]

theorem mapDelete_map_fst (m : List (String × Finset Nat)) (c : String) (i : Nat) :
    (mapDelete m c i).map Prod.fst = m.map Prod.fst := by
  unfold mapDelete
  rw [List.map_map]
  apply List.map_congr_left
  intro kv _
  by_cases h : kv.1 = c <;> simp [Function.comp, h]

theorem mapAdd_map_fst_nodup (m : List (String × Finset Nat)) (c : String)
    (i : Nat) (h : (m.map Prod.fst).Nodup) :
    ((mapAdd m c i).map Prod.fst).Nodup := by
  unfold mapAdd
  by_cases hany : (m.any fun kv => kv.1 == c) = true
  · rw [if_pos hany, List.map_map]
    have : (Prod.fst ∘ fun kv : String × Finset Nat =>
        if kv.1 == c then (kv.1, insert i kv.2) else kv) = Prod.fst := by
      funext kv
      by_cases hk : kv.1 = c <;> simp [Function.comp, hk]
    rw [this]
    exact h
  · rw [if_neg hany, List.map_append]
    refine List.Nodup.append h (by simp) ?_
    intro a ha hb
    simp only [List.map_cons, List.map_nil, List.mem_singleton] at hb
    subst hb
    obtain ⟨kv, hkv, hfst⟩ := List.mem_map.mp ha
    exact hany (List.any_eq_true.mpr ⟨kv, hkv, by simp [hfst]⟩)

/-- Membership in an entry of `mapDelete` comes from membership in the matching
entry of the original table. -/
theorem mem_mapDelete {m : List (String × Finset Nat)} {c : String} {i : Nat}
    {p : String × Finset Nat} (hp : p ∈ mapDelete m c i) :
    ∃ q ∈ m, p.1 = q.1 ∧ p.2 ⊆ q.2 := by
  obtain ⟨q, hq, hpq⟩ := List.mem_map.mp hp
  refine ⟨q, hq, ?_⟩
  cases hqc : (q.1 == c) with
  | true =>
    rw [hqc] at hpq
    simp only [if_true] at hpq
    subst hpq
    exact ⟨rfl, Finset.erase_subset _ _⟩
  | false =>
    rw [hqc] at hpq
    simp only [Bool.false_eq_true, if_false, ite_false] at hpq
    subst hpq
    exact ⟨rfl, subset_rfl⟩

/-- Membership in an entry of `mapAdd`: either it was already there, or it is
the inserted subscription under exactly the requested channel key. -/
theorem mem_mapAdd {m : List (String × Finset Nat)} {c : String} {i : Nat}
    {p : String × Finset Nat} (hp : p ∈ mapAdd m c i) :
    ∀ j ∈ p.2, (∃ q ∈ m, p.1 = q.1 ∧ j ∈ q.2) ∨ (p.1 = c ∧ j = i) := by
  intro j hj
  unfold mapAdd at hp
  by_cases hany : (m.any fun kv => kv.1 == c) = true
  · rw [if_pos hany] at hp
    obtain ⟨q, hq, hpq⟩ := List.mem_map.mp hp
    cases hqc : (q.1 == c) with
    | true =>
      rw [hqc] at hpq
      simp only [if_true] at hpq
      subst hpq
      simp only [Finset.mem_insert] at hj
      rcases hj with rfl | hj
      · exact Or.inr ⟨by simpa using hqc, rfl⟩
      · exact Or.inl ⟨q, hq, rfl, hj⟩
    | false =>
      rw [hqc] at hpq
      simp only [Bool.false_eq_true, if_false, ite_false] at hpq
      subst hpq
      exact Or.inl ⟨q, hq, rfl, hj⟩
  · rw [if_neg hany] at hp
    rcases List.mem_append.mp hp with hp | hp
    · exact Or.inl ⟨p, hp, rfl, hj⟩
    · simp only [List.mem_singleton] at hp
      subst hp
      simp only [Finset.mem_singleton] at hj
      exact Or.inr ⟨rfl, hj⟩

/-! ### Delivery lemmas -/

theorem pushAll_cons (o : Origin) (e : Event) (paths : Nat → Path) (i : Nat)
    (rest : List Nat) :
    pushAll o e paths (i :: rest) =
      match chanSend (paths i) o e with
      | none => none
      | some p => pushAll o e (fun j => if j = i then p else paths j) rest := rfl

/-- Pushing to a list of open pairwise-distinct targets succeeds, appends the
event once to each target's path and leaves every other path untouched. -/
theorem pushAll_sound (o : Origin) (e : Event) (members : List Nat) :
    ∀ paths : Nat → Path, members.Nodup →
      (∀ i ∈ members, (paths i).closed = false) →
      ∃ ps, pushAll o e paths members = some ps ∧
        (∀ i ∈ members,
          ps i = { paths i with buf := (paths i).buf ++ [(o, e)] }) ∧
        (∀ i, i ∉ members → ps i = paths i) := by
  induction members with
  | nil =>
    intro paths _ _
    exact ⟨paths, rfl, by simp, fun _ _ => rfl⟩
  | cons i rest ih =>
    intro paths hnd hopen
    have hi : (paths i).closed = false := hopen i (List.mem_cons_self _ _)
    have hnotin : i ∉ rest := (List.nodup_cons.mp hnd).1
    have hrest : rest.Nodup := (List.nodup_cons.mp hnd).2
    obtain ⟨ps, hps, hin, hout⟩ := ih
      (fun j => if j = i then { paths i with buf := (paths i).buf ++ [(o, e)] }
        else paths j)
      hrest
      (fun j hj => by
        have hji : j ≠ i := fun hx => hnotin (hx ▸ hj)
        simpa [hji] using hopen j (List.mem_cons_of_mem _ hj))
    refine ⟨ps, ?_, ?_, ?_⟩
    · rw [pushAll_cons, chanSend_open hi]
      exact hps
    · intro j hj
      rcases List.mem_cons.mp hj with rfl | hj
      · rw [hout j hnotin]
        simp
      · rw [hin j hj]
        have hji : j ≠ i := fun hx => hnotin (hx ▸ hj)
        simp [hji]
    · intro j hj
      have hj1 : j ≠ i := fun hx => hj (hx ▸ List.mem_cons_self _ _)
      have hj2 : j ∉ rest := fun hx => hj (List.mem_cons_of_mem _ hx)
      rw [hout j hj2]
      simp [hj1]

/-- Whatever list a successful `pushAll` traversed, each path gained some
number of copies of the pushed entry at its end and kept its close state. -/
theorem pushAll_out (o : Origin) (e : Event) (members : List Nat) :
    ∀ paths ps : Nat → Path, pushAll o e paths members = some ps →
      ∀ i, ∃ n, (ps i).buf = (paths i).buf ++ List.replicate n (o, e) ∧
        (ps i).closed = (paths i).closed ∧
        (ps i).closeCount = (paths i).closeCount := by
  induction members with
  | nil =>
    intro paths ps h i
    have h' : some paths = some ps := h
    obtain rfl := Option.some.inj h'
    exact ⟨0, by simp, rfl, rfl⟩
  | cons i rest ih =>
    intro paths ps h j
    rw [pushAll_cons] at h
    cases hc : chanSend (paths i) o e with
    | none => rw [hc] at h; exact absurd h (by simp)
    | some p =>
      rw [hc] at h
      have h' : pushAll o e (fun j => if j = i then p else paths j) rest
          = some ps := h
      obtain ⟨hcl, hbuf, hclo, hcc⟩ := chanSend_some hc
      obtain ⟨n, hb, hc2, hc3⟩ := ih _ ps h' j
      by_cases hji : j = i
      · subst hji
        have hpj : (if j = j then p else paths j) = p := if_pos rfl
        rw [hpj] at hb hc2 hc3
        refine ⟨n + 1, ?_, ?_, ?_⟩
        · rw [hb, hbuf, List.append_assoc, List.singleton_append,
            ← List.replicate_succ]
        · rw [hc2, hclo]
        · rw [hc3, hcc]
      · refine ⟨n, ?_, ?_, ?_⟩
        · rw [hb]; simp [hji]
        · rw [hc2]; simp [hji]
        · rw [hc3]; simp [hji]

theorem publishPaths_cons (e : Event) (subs : List (String × Finset Nat))
    (paths : Nat → Path) (c : String) (rest : List String) :
    publishPaths e subs paths (c :: rest) =
      match pushAll Origin.live e paths ((sortMembers (membersOf subs c))) with
      | none => none
      | some ps => publishPaths e subs ps rest := rfl

/-- A successful publish pass appends some number of live copies of the event
to each path and keeps every close state. -/
theorem publishPaths_out (e : Event) (subs : List (String × Finset Nat))
    (channels : List String) :
    ∀ paths ps : Nat → Path, publishPaths e subs paths channels = some ps →
      ∀ i, ∃ n,
        (ps i).buf = (paths i).buf ++ List.replicate n (Origin.live, e) ∧
        (ps i).closed = (paths i).closed ∧
        (ps i).closeCount = (paths i).closeCount := by
  induction channels with
  | nil =>
    intro paths ps h i
    have h' : some paths = some ps := h
    obtain rfl := Option.some.inj h'
    exact ⟨0, by simp, rfl, rfl⟩
  | cons c rest ih =>
    intro paths ps h i
    rw [publishPaths_cons] at h
    cases hp : pushAll Origin.live e paths ((sortMembers (membersOf subs c))) with
    | none => rw [hp] at h; exact absurd h (by simp)
    | some ps1 =>
      rw [hp] at h
      obtain ⟨n, hb, hcl, hcc⟩ := ih ps1 ps h i
      obtain ⟨m, hb', hcl', hcc'⟩ := pushAll_out _ _ _ _ _ hp i
      refine ⟨m + n, ?_, hcl.trans hcl', hcc.trans hcc'⟩
      rw [hb, hb', List.append_assoc, ← List.replicate_add]

/-- On a table whose member sets are pairwise disjoint across the listed
channels and whose paths are all open, a publish pass succeeds, delivers the
event exactly once to every member of every listed channel, and leaves every
path that belongs to none of the listed channels untouched. -/
theorem publishPaths_sound (e : Event) (subs : List (String × Finset Nat))
    (channels : List String) :
    ∀ paths : Nat → Path, channels.Nodup →
      (∀ c ∈ channels, ∀ c' ∈ channels, c ≠ c' →
        ∀ i, i ∈ membersOf subs c → i ∉ membersOf subs c') →
      (∀ i, (paths i).closed = false) →
      ∃ ps, publishPaths e subs paths channels = some ps ∧
        (∀ c ∈ channels, ∀ i ∈ membersOf subs c,
          (ps i).buf = (paths i).buf ++ [(Origin.live, e)] ∧
          (ps i).closed = (paths i).closed ∧
          (ps i).closeCount = (paths i).closeCount) ∧
        (∀ i, (∀ c ∈ channels, i ∉ membersOf subs c) → ps i = paths i) := by
  induction channels with
  | nil =>
    intro paths _ _ _
    exact ⟨paths, rfl, by simp, fun _ _ => rfl⟩
  | cons c rest ih =>
    intro paths hnd hdisj hopen
    have hcrest : c ∉ rest := (List.nodup_cons.mp hnd).1
    have hrest : rest.Nodup := (List.nodup_cons.mp hnd).2
    obtain ⟨ps1, hps1, hin1, hout1⟩ := pushAll_sound Origin.live e
      ((sortMembers (membersOf subs c))) paths (sortMembers_nodup _)
      (fun i _ => hopen i)
    have hopen1 : ∀ i, (ps1 i).closed = false := by
      intro i
      by_cases hi : i ∈ (sortMembers (membersOf subs c))
      · rw [hin1 i hi]; exact hopen i
      · rw [hout1 i hi]; exact hopen i
    obtain ⟨ps, hps, hin, hout⟩ := ih ps1 hrest
      (fun a ha a' ha' hne i => hdisj a (List.mem_cons_of_mem _ ha)
        a' (List.mem_cons_of_mem _ ha') hne i) hopen1
    refine ⟨ps, ?_, ?_, ?_⟩
    · rw [publishPaths_cons, hps1]
      exact hps
    · intro c' hc' i hi
      rcases List.mem_cons.mp hc' with rfl | hc'
      · have hnot : ∀ a ∈ rest, i ∉ membersOf subs a := by
          intro a ha
          exact hdisj c' (List.mem_cons_self _ _) a (List.mem_cons_of_mem _ ha)
            (fun hx => hcrest (hx ▸ ha)) i hi
        rw [hout i hnot, hin1 i (by simpa [mem_sortMembers] using hi)]
        exact ⟨rfl, rfl, rfl⟩
      · have hic : i ∉ membersOf subs c :=
          hdisj c' (List.mem_cons_of_mem _ hc') c (List.mem_cons_self _ _)
            (fun hx => hcrest (hx ▸ hc')) i hi
        obtain ⟨hb, hcl, hcc⟩ := hin c' hc' i hi
        rw [hb, hcl, hcc, hout1 i (by simpa [mem_sortMembers] using hic)]
        exact ⟨rfl, rfl, rfl⟩
    · intro i hi
      rw [hout i (fun a ha => hi a (List.mem_cons_of_mem _ ha)),
        hout1 i (by simpa [mem_sortMembers] using hi c (List.mem_cons_self _ _))]

/-! ### Shutdown lemmas -/

theorem closeAll_cons (paths : Nat → Path) (i : Nat) (rest : List Nat) :
    closeAll paths (i :: rest) =
      match chanClose (paths i) with
      | none => none
      | some p => closeAll (fun j => if j = i then p else paths j) rest := rfl

/-- Closing a list of open pairwise-distinct targets succeeds, closes each
exactly once and leaves every other path untouched. -/
theorem closeAll_sound (members : List Nat) :
    ∀ paths : Nat → Path, members.Nodup →
      (∀ i ∈ members, (paths i).closed = false) →
      ∃ ps, closeAll paths members = some ps ∧
        (∀ i ∈ members, ps i =
          { paths i with closed := true, closeCount := (paths i).closeCount + 1 }) ∧
        (∀ i, i ∉ members → ps i = paths i) := by
  induction members with
  | nil =>
    intro paths _ _
    exact ⟨paths, rfl, by simp, fun _ _ => rfl⟩
  | cons i rest ih =>
    intro paths hnd hopen
    have hi : (paths i).closed = false := hopen i (List.mem_cons_self _ _)
    have hnotin : i ∉ rest := (List.nodup_cons.mp hnd).1
    have hrest : rest.Nodup := (List.nodup_cons.mp hnd).2
    obtain ⟨ps, hps, hin, hout⟩ := ih
      (fun j => if j = i then
        { paths i with closed := true, closeCount := (paths i).closeCount + 1 }
        else paths j)
      hrest
      (fun j hj => by
        have hji : j ≠ i := fun hx => hnotin (hx ▸ hj)
        simpa [hji] using hopen j (List.mem_cons_of_mem _ hj))
    refine ⟨ps, ?_, ?_, ?_⟩
    · rw [closeAll_cons, chanClose_open hi]
      exact hps
    · intro j hj
      rcases List.mem_cons.mp hj with rfl | hj
      · rw [hout j hnotin]
        simp
      · rw [hin j hj]
        have hji : j ≠ i := fun hx => hnotin (hx ▸ hj)
        simp [hji]
    · intro j hj
      have hj1 : j ≠ i := fun hx => hj (hx ▸ List.mem_cons_self _ _)
      have hj2 : j ∉ rest := fun hx => hj (List.mem_cons_of_mem _ hx)
      rw [hout j hj2]
      simp [hj1]

/-- A successful `closeAll` pass never rewrites any path's content. -/
theorem closeAll_out (members : List Nat) :
    ∀ paths ps : Nat → Path, closeAll paths members = some ps →
      ∀ i, (ps i).buf = (paths i).buf := by
  induction members with
  | nil =>
    intro paths ps h i
    have h' : some paths = some ps := h
    obtain rfl := Option.some.inj h'
    rfl
  | cons i rest ih =>
    intro paths ps h j
    rw [closeAll_cons] at h
    cases hc : chanClose (paths i) with
    | none => rw [hc] at h; exact absurd h (by simp)
    | some p =>
      rw [hc] at h
      have h' : closeAll (fun j => if j = i then p else paths j) rest
          = some ps := h
      obtain ⟨_, hbuf, _, _⟩ := chanClose_some hc
      rw [ih _ ps h' j]
      by_cases hji : j = i
      · subst hji; simpa using hbuf
      · simp [hji]

theorem closeTable_cons (paths : Nat → Path) (kv : String × Finset Nat)
    (rest : List (String × Finset Nat)) :
    closeTable paths (kv :: rest) =
      match closeAll paths (sortMembers kv.2) with
      | none => none
      | some ps => closeTable ps rest := rfl

/-- On a table whose member sets are pairwise disjoint and whose members'
paths are all open, the quit sweep succeeds, closes every registered path
exactly once and leaves every unregistered path untouched. -/
theorem closeTable_sound (table : List (String × Finset Nat)) :
    ∀ paths : Nat → Path,
      table.Pairwise (fun p q => ∀ i, i ∈ p.2 → i ∉ q.2) →
      (∀ p ∈ table, ∀ i ∈ p.2, (paths i).closed = false) →
      ∃ ps, closeTable paths table = some ps ∧
        (∀ p ∈ table, ∀ i ∈ p.2, ps i =
          { paths i with closed := true, closeCount := (paths i).closeCount + 1 }) ∧
        (∀ i, (∀ p ∈ table, i ∉ p.2) → ps i = paths i) := by
  induction table with
  | nil =>
    intro paths _ _
    exact ⟨paths, rfl, by simp, fun _ _ => rfl⟩
  | cons kv rest ih =>
    intro paths hpw hopen
    have hpw1 : ∀ q ∈ rest, ∀ i, i ∈ kv.2 → i ∉ q.2 :=
      fun q hq i => (List.pairwise_cons.mp hpw).1 q hq i
    have hpwrest : rest.Pairwise (fun p q => ∀ i, i ∈ p.2 → i ∉ q.2) :=
      (List.pairwise_cons.mp hpw).2
    obtain ⟨ps1, hps1, hin1, hout1⟩ := closeAll_sound (sortMembers kv.2) paths
      (sortMembers_nodup _)
      (fun i hi => hopen kv (List.mem_cons_self _ _) i
        (by simpa [mem_sortMembers] using hi))
    obtain ⟨ps, hps, hin, hout⟩ := ih ps1 hpwrest
      (fun q hq i hi => by
        rw [hout1 i (by
          simpa [mem_sortMembers] using fun hx => hpw1 q hq i hx hi)]
        exact hopen q (List.mem_cons_of_mem _ hq) i hi)
    refine ⟨ps, ?_, ?_, ?_⟩
    · rw [closeTable_cons, hps1]
      exact hps
    · intro q hq i hi
      rcases List.mem_cons.mp hq with rfl | hq
      · rw [hout i (fun q' hq' => hpw1 q' hq' i hi),
          hin1 i (by simpa [mem_sortMembers] using hi)]
      · have hik : i ∉ kv.2 := fun hx => hpw1 q hq i hx hi
        rw [hin q hq i hi, hout1 i (by simpa [mem_sortMembers] using hik)]
    · intro i hi
      rw [hout i (fun q hq => hi q (List.mem_cons_of_mem _ hq)),
        hout1 i (by simpa [mem_sortMembers] using hi kv (List.mem_cons_self _ _))]

/-- A successful quit sweep never rewrites any path's content. -/
theorem closeTable_out (table : List (String × Finset Nat)) :
    ∀ paths ps : Nat → Path, closeTable paths table = some ps →
      ∀ i, (ps i).buf = (paths i).buf := by
  induction table with
  | nil =>
    intro paths ps h i
    have h' : some paths = some ps := h
    obtain rfl := Option.some.inj h'
    rfl
  | cons kv rest ih =>
    intro paths ps h i
    rw [closeTable_cons] at h
    cases hc : closeAll paths (sortMembers kv.2) with
    | none => rw [hc] at h; exact absurd h (by simp)
    | some ps1 =>
      rw [hc] at h
      have h' : closeTable ps1 rest = some ps := h
      rw [ih ps1 ps h' i, closeAll_out _ _ _ hc i]

/-! ### Invariant helpers -/

/-- Two members of a list with duplicate-free images under `f` that agree
under `f` are the same element. -/
theorem eq_of_map_nodup {α β : Type} {f : α → β} {l : List α}
    (h : (l.map f).Nodup) {a b : α} (ha : a ∈ l) (hb : b ∈ l)
    (hf : f a = f b) : a = b := by
  by_contra hne
  have hpw : l.Pairwise fun x y => f x ≠ f y := List.pairwise_map.mp h
  have hsym : Symmetric fun x y => f x ≠ f y := by
    intro x y hxy h'
    exact hxy h'.symm
  exact hpw.forall hsym ha hb hne hf

/-- Under a channel-consistent table, a member found under channel `c` was
created for channel `c`. -/
theorem membersOf_channel (env : SubEnv) {m : List (String × Finset Nat)}
    (hmem : ∀ p ∈ m, ∀ i ∈ p.2, (env i).channel = p.1)
    {c : String} {i : Nat} (h : i ∈ membersOf m c) : (env i).channel = c := by
  obtain ⟨kv, hkv, hk, hi⟩ := mem_membersOf h
  rw [← hk]
  exact hmem kv hkv i hi

/-- Under a channel-consistent table, the member sets of distinct channels
are disjoint. -/
theorem membersOf_disjoint (env : SubEnv) {m : List (String × Finset Nat)}
    (hmem : ∀ p ∈ m, ∀ i ∈ p.2, (env i).channel = p.1)
    {c c' : String} (hne : c ≠ c') :
    ∀ i, i ∈ membersOf m c → i ∉ membersOf m c' := by
  intro i hi hi'
  exact hne ((membersOf_channel env hmem hi).symm.trans
    (membersOf_channel env hmem hi'))

/-- A channel-consistent table with duplicate-free keys has pairwise-disjoint
member sets across its entries. -/
theorem table_pairwise (env : SubEnv) {m : List (String × Finset Nat)}
    (hk : (m.map Prod.fst).Nodup)
    (hmem : ∀ p ∈ m, ∀ i ∈ p.2, (env i).channel = p.1) :
    m.Pairwise fun p q => ∀ i, i ∈ p.2 → i ∉ q.2 := by
  have hpw : m.Pairwise fun p q => p.1 ≠ q.1 := List.pairwise_map.mp hk
  refine hpw.imp_of_mem ?_
  intro p q hp hq hne i hip hiq
  exact hne ((hmem p hp i hip).symm.trans (hmem q hq i hiq))

theorem inv_init (env : SubEnv) (renv : ReplayFn) : Inv env renv initState := by
  refine ⟨?_, ?_, ?_, ?_, ?_, ?_, ?_, ?_⟩ <;> simp [initState]

theorem inv_register (env : SubEnv) (renv : ReplayFn) {s : ServerState}
    (hinv : Inv env renv s) (ch : String) (r : Nat) :
    Inv env renv { s with repos := fun c => if c = ch then some r else s.repos c } :=
  ⟨hinv.keysNodup, hinv.memChannel, hinv.openPaths, hinv.tidsLt,
    hinv.tidsNodup, hinv.bufTids, hinv.taskWf, hinv.taskProgress⟩

theorem inv_unregister (env : SubEnv) (renv : ReplayFn) {s : ServerState}
    (hinv : Inv env renv s) (i : Nat) :
    Inv env renv { s with subs := mapDelete s.subs (env i).channel i } := by
  refine ⟨?_, ?_, hinv.openPaths, hinv.tidsLt, hinv.tidsNodup, hinv.bufTids,
    hinv.taskWf, hinv.taskProgress⟩
  · show ((mapDelete s.subs (env i).channel i).map Prod.fst).Nodup
    rw [mapDelete_map_fst]
    exact hinv.keysNodup
  · intro p hp j hj
    obtain ⟨q, hq, hfst, hsub⟩ := mem_mapDelete hp
    rw [hfst]
    exact hinv.memChannel q hq j (hsub hj)

theorem inv_publish (env : SubEnv) (renv : ReplayFn) {s s' : ServerState}
    (hinv : Inv env renv s) {channels : List String} {e : Event}
    (h : doPublish s channels e = some s') : Inv env renv s' := by
  obtain ⟨ps, hps, rfl⟩ := Option.map_eq_some'.mp h
  refine ⟨hinv.keysNodup, hinv.memChannel, ?_, hinv.tidsLt, hinv.tidsNodup,
    ?_, hinv.taskWf, ?_⟩
  · intro hstop j
    obtain ⟨n, _, hcl, hcc⟩ := publishPaths_out _ _ _ _ _ hps j
    have ho := hinv.openPaths hstop j
    exact ⟨hcl.trans ho.1, hcc.trans ho.2⟩
  · intro j pr hpr tid hpr1
    obtain ⟨n, hb, _, _⟩ := publishPaths_out _ _ _ _ _ hps j
    have hpr' : pr ∈ (ps j).buf := hpr
    rw [hb] at hpr'
    rcases List.mem_append.mp hpr' with hm | hm
    · exact hinv.bufTids j pr hm tid hpr1
    · rw [List.eq_of_mem_replicate hm] at hpr1
      simp at hpr1
  · intro t ht
    obtain ⟨n, hb, _, _⟩ := publishPaths_out _ _ _ _ _ hps t.subId
    show ((ps t.subId).buf.filter fun pr =>
        pr.1 == Origin.replayTask t.tid).map Prod.snd ++ t.remaining
      = renv t.repoId t.channel t.lastSeenId
    rw [hb, List.filter_append, List.filter_replicate_of_neg (by simp),
      List.append_nil]
    exact hinv.taskProgress t ht

theorem inv_subscribe (env : SubEnv) (renv : ReplayFn) {s : ServerState}
    (hinv : Inv env renv s) (i : Nat) :
    Inv env renv (doSubscribe env renv s i) := by
  have hsubs1 : ((mapAdd s.subs (env i).channel i).map Prod.fst).Nodup :=
    mapAdd_map_fst_nodup _ _ _ hinv.keysNodup
  have hmem1 : ∀ p ∈ mapAdd s.subs (env i).channel i, ∀ j ∈ p.2,
      (env j).channel = p.1 := by
    intro p hp j hj
    rcases mem_mapAdd hp j hj with ⟨q, hq, hfst, hjq⟩ | ⟨hfst, rfl⟩
    · rw [hfst]
      exact hinv.memChannel q hq j hjq
    · rw [hfst]
  unfold doSubscribe
  by_cases hlen : (env i).lastEventId.length > 0
  · rw [if_pos hlen]
    cases hrep : s.repos (env i).channel with
    | none =>
      exact ⟨hsubs1, hmem1, hinv.openPaths, hinv.tidsLt, hinv.tidsNodup,
        hinv.bufTids, hinv.taskWf, hinv.taskProgress⟩
    | some r =>
      refine ⟨hsubs1, hmem1, hinv.openPaths, ?_, ?_, ?_, ?_, ?_⟩
      · intro t ht
        rcases List.mem_append.mp ht with ht | ht
        · exact Nat.lt_trans (hinv.tidsLt t ht) (Nat.lt_succ_self _)
        · simp only [List.mem_singleton] at ht
          subst ht
          exact Nat.lt_succ_self _
      · show ((s.tasks ++ [_]).map Task.tid).Nodup
        rw [List.map_append]
        refine List.Nodup.append hinv.tidsNodup (by simp) ?_
        intro a ha hb
        simp only [List.map_cons, List.map_nil, List.mem_singleton] at hb
        subst hb
        obtain ⟨t, ht, hfst⟩ := List.mem_map.mp ha
        exact absurd (hfst ▸ hinv.tidsLt t ht) (Nat.lt_irrefl _)
      · intro j pr hpr tid hpr1
        exact Nat.lt_trans (hinv.bufTids j pr hpr tid hpr1) (Nat.lt_succ_self _)
      · intro t ht
        rcases List.mem_append.mp ht with ht | ht
        · exact hinv.taskWf t ht
        · simp only [List.mem_singleton] at ht
          subst ht
          exact ⟨rfl, rfl⟩
      · intro t ht
        rcases List.mem_append.mp ht with ht | ht
        · exact hinv.taskProgress t ht
        · simp only [List.mem_singleton] at ht
          subst ht
          have hempty : ((s.paths i).buf.filter fun pr =>
              pr.1 == Origin.replayTask s.nextTid) = [] := by
            rw [List.filter_eq_nil_iff]
            intro pr hpr habs
            have hpr1 : pr.1 = Origin.replayTask s.nextTid := by simpa using habs
            exact absurd (hinv.bufTids i pr hpr s.nextTid hpr1) (Nat.lt_irrefl _)
          show ((s.paths i).buf.filter fun pr =>
              pr.1 == Origin.replayTask s.nextTid).map Prod.snd ++
              renv r (env i).channel (env i).lastEventId
            = renv r (env i).channel (env i).lastEventId
          rw [hempty]
          rfl
  · rw [if_neg hlen]
    exact ⟨hsubs1, hmem1, hinv.openPaths, hinv.tidsLt, hinv.tidsNodup,
      hinv.bufTids, hinv.taskWf, hinv.taskProgress⟩

theorem inv_quit (env : SubEnv) (renv : ReplayFn) {s : ServerState}
    (hinv : Inv env renv s) {ps : Nat → Path}
    (h : closeTable s.paths s.subs = some ps) :
    Inv env renv { s with paths := ps, stopped := true } := by
  refine ⟨hinv.keysNodup, hinv.memChannel, ?_, hinv.tidsLt, hinv.tidsNodup,
    ?_, hinv.taskWf, ?_⟩
  · intro hstop
    exact absurd hstop (by simp)
  · intro j pr hpr tid hpr1
    have hpr' : pr ∈ (ps j).buf := hpr
    rw [closeTable_out _ _ _ h j] at hpr'
    exact hinv.bufTids j pr hpr' tid hpr1
  · intro t ht
    show ((ps t.subId).buf.filter fun pr =>
        pr.1 == Origin.replayTask t.tid).map Prod.snd ++ t.remaining
      = renv t.repoId t.channel t.lastSeenId
    rw [closeTable_out _ _ _ h t.subId]
    exact hinv.taskProgress t ht

theorem inv_replay (env : SubEnv) (renv : ReplayFn) {s s' : ServerState}
    (hinv : Inv env renv s) {tid : Nat}
    (h : doReplayStep s tid = some s') : Inv env renv s' := by
  unfold doReplayStep at h
  cases hf : s.tasks.find? fun t => t.tid == tid with
  | none =>
    rw [hf] at h
    obtain rfl := Option.some.inj h
    exact hinv
  | some t =>
    rw [hf] at h
    have ht : t ∈ s.tasks := List.mem_of_find?_eq_some hf
    have htid : t.tid = tid := by simpa using List.find?_some hf
    have h2 : (match t.remaining with
      | [] => some s
      | e :: rest =>
        match chanSend (s.paths t.subId) (Origin.replayTask t.tid) e with
        | none => none
        | some p =>
          some { s with
            paths := fun j => if j = t.subId then p else s.paths j,
            tasks := s.tasks.map fun u =>
              if u.tid == tid then { u with remaining := rest } else u })
        = some s' := h
    clear h
    cases hrem : t.remaining with
    | nil =>
      rw [hrem] at h2
      obtain rfl := Option.some.inj h2
      exact hinv
    | cons e rest =>
      rw [hrem] at h2
      have h3 : (match chanSend (s.paths t.subId) (Origin.replayTask t.tid) e with
        | none => none
        | some p =>
          some { s with
            paths := fun j => if j = t.subId then p else s.paths j,
            tasks := s.tasks.map fun u =>
              if u.tid == tid then { u with remaining := rest } else u })
          = some s' := h2
      clear h2
      cases hc : chanSend (s.paths t.subId) (Origin.replayTask t.tid) e with
      | none =>
        rw [hc] at h3
        exact absurd h3 (by simp)
      | some p =>
        rw [hc] at h3
        obtain rfl := Option.some.inj h3
        obtain ⟨hcl, hbuf, hclo, hcc⟩ := chanSend_some hc
        refine ⟨hinv.keysNodup, hinv.memChannel, ?_, ?_, ?_, ?_, ?_, ?_⟩
        · intro hstop j
          have ho := hinv.openPaths hstop
          show ((if j = t.subId then p else s.paths j)).closed = false ∧
            ((if j = t.subId then p else s.paths j)).closeCount = 0
          by_cases hj : j = t.subId
          · rw [if_pos hj, hclo, hcc]
            exact ho t.subId
          · rw [if_neg hj]
            exact ho j
        · intro u hu
          obtain ⟨v, hv, rfl⟩ := List.mem_map.mp hu
          by_cases hvt : (v.tid == tid) = true
          · rw [if_pos hvt]
            exact hinv.tidsLt v hv
          · rw [if_neg hvt]
            exact hinv.tidsLt v hv
        · show ((s.tasks.map fun u =>
            if (u.tid == tid) = true then { u with remaining := rest }
            else u).map Task.tid).Nodup
          rw [List.map_map]
          have hcomp : (Task.tid ∘ fun u : Task =>
              if (u.tid == tid) = true then { u with remaining := rest }
              else u) = Task.tid := by
            funext v
            show ((if (v.tid == tid) = true then { v with remaining := rest }
              else v) : Task).tid = v.tid
            split <;> rfl
          rw [hcomp]
          exact hinv.tidsNodup
        · intro j pr hpr tid' hpr1
          have hpr0 : pr ∈ ((if j = t.subId then p else s.paths j)).buf := hpr
          by_cases hj : j = t.subId
          · rw [if_pos hj, hbuf] at hpr0
            rcases List.mem_append.mp hpr0 with hm | hm
            · exact hinv.bufTids t.subId pr hm tid' hpr1
            · simp only [List.mem_singleton] at hm
              subst hm
              have htid' : tid' = t.tid := by
                have hx : Origin.replayTask t.tid = Origin.replayTask tid' := hpr1
                injection hx with hy
                exact hy.symm
              rw [htid']
              exact hinv.tidsLt t ht
          · rw [if_neg hj] at hpr0
            exact hinv.bufTids j pr hpr0 tid' hpr1
        · intro u hu
          obtain ⟨v, hv, rfl⟩ := List.mem_map.mp hu
          have hwf := hinv.taskWf v hv
          by_cases hvt : (v.tid == tid) = true
          · rw [if_pos hvt]
            exact hwf
          · rw [if_neg hvt]
            exact hwf
        · intro u hu
          obtain ⟨v, hv, rfl⟩ := List.mem_map.mp hu
          by_cases hvt : (v.tid == tid) = true
          · have hveq : v = t :=
              eq_of_map_nodup hinv.tidsNodup hv ht
                ((show v.tid = tid by simpa using hvt).trans htid.symm)
            subst hveq
            rw [if_pos hvt]
            show ((if v.subId = v.subId then p else s.paths v.subId).buf.filter
                fun pr => pr.1 == Origin.replayTask v.tid).map Prod.snd ++ rest
              = renv v.repoId v.channel v.lastSeenId
            rw [if_pos rfl, hbuf, List.filter_append]
            have hsingle : List.filter (fun pr =>
                pr.1 == Origin.replayTask v.tid)
                [(Origin.replayTask v.tid, e)] = [(Origin.replayTask v.tid, e)] := by
              simp
            rw [hsingle, List.map_append, List.append_assoc]
            have hprog := hinv.taskProgress v hv
            rw [hrem] at hprog
            exact hprog
          · have hvne : v.tid ≠ t.tid := by
              intro hx
              exact hvt (by simp [hx, htid])
            rw [if_neg hvt]
            show ((if v.subId = t.subId then p else s.paths v.subId).buf.filter
                fun pr => pr.1 == Origin.replayTask v.tid).map Prod.snd ++
                v.remaining = renv v.repoId v.channel v.lastSeenId
            by_cases hj : v.subId = t.subId
            · rw [if_pos hj, hbuf, List.filter_append]
              have hnone : List.filter (fun pr =>
                  pr.1 == Origin.replayTask v.tid)
                  [(Origin.replayTask t.tid, e)] = [] := by
                simp only [List.filter_cons, List.filter_nil]
                have hfalse : ((Origin.replayTask t.tid, e).1 ==
                    Origin.replayTask v.tid) = false := by
                  simp only [beq_eq_false_iff_ne, ne_eq]
                  intro hx
                  injection hx with hy
                  exact hvne hy.symm
                rw [hfalse]
                simp
              rw [hnone, List.append_nil, ← hj]
              exact hinv.taskProgress v hv
            · rw [if_neg hj]
              exact hinv.taskProgress v hv

/-- Every successful step preserves the invariant. -/
theorem inv_step (env : SubEnv) (renv : ReplayFn) {s s' : ServerState}
    {m : Msg} (h : step env renv s m = some s') (hinv : Inv env renv s) :
    Inv env renv s' := by
  cases m with
  | register ch r =>
    simp only [step] at h
    by_cases hst : s.stopped = true
    · rw [if_pos hst] at h
      obtain rfl := Option.some.inj h
      exact hinv
    · rw [if_neg hst] at h
      obtain rfl := Option.some.inj h
      exact inv_register env renv hinv ch r
  | unregister i =>
    simp only [step] at h
    by_cases hst : s.stopped = true
    · rw [if_pos hst] at h
      obtain rfl := Option.some.inj h
      exact hinv
    · rw [if_neg hst] at h
      obtain rfl := Option.some.inj h
      exact inv_unregister env renv hinv i
  | publish channels e =>
    simp only [step] at h
    by_cases hst : s.stopped = true
    · rw [if_pos hst] at h
      obtain rfl := Option.some.inj h
      exact hinv
    · rw [if_neg hst] at h
      exact inv_publish env renv hinv h
  | subscribe i =>
    simp only [step] at h
    by_cases hst : s.stopped = true
    · rw [if_pos hst] at h
      obtain rfl := Option.some.inj h
      exact hinv
    · rw [if_neg hst] at h
      obtain rfl := Option.some.inj h
      exact inv_subscribe env renv hinv i
  | quit =>
    simp only [step] at h
    by_cases hst : s.stopped = true
    · rw [if_pos hst] at h
      obtain rfl := Option.some.inj h
      exact hinv
    · rw [if_neg hst] at h
      obtain ⟨ps, hps, rfl⟩ := Option.map_eq_some'.mp h
      exact inv_quit env renv hinv hps
  | replayStep tid =>
    simp only [step] at h
    exact inv_replay env renv hinv h

/-- The invariant holds along every successful execution. -/
theorem inv_run (env : SubEnv) (renv : ReplayFn) :
    ∀ (msgs : List Msg) (s s' : ServerState),
      run env renv s msgs = some s' → Inv env renv s → Inv env renv s' := by
  intro msgs
  induction msgs with
  | nil =>
    intro s s' h hinv
    have h' : some s = some s' := h
    obtain rfl := Option.some.inj h'
    exact hinv
  | cons m rest ih =>
    intro s s' h hinv
    have h' : (match step env renv s m with
      | none => none
      | some s1 => run env renv s1 rest) = some s' := h
    cases hstep : step env renv s m with
    | none => rw [hstep] at h'; cases h'
    | some s1 =>
      rw [hstep] at h'
      exact ih s1 s' h' (inv_step env renv hstep hinv)

/-- Every reachable state satisfies the invariant. -/
theorem inv_reachable (env : SubEnv) (renv : ReplayFn) {s : ServerState}
    (h : Reachable env renv s) : Inv env renv s := by
  obtain ⟨msgs, hrun⟩ := h
  exact inv_run env renv msgs initState s hrun (inv_init env renv)

/-! ### Step-reduction and small algebraic helpers -/

theorem step_register (env : SubEnv) (renv : ReplayFn) {s : ServerState}
    (h : s.stopped = false) (ch : String) (r : Nat) :
    step env renv s (Msg.register ch r)
      = some { s with repos := fun c => if c = ch then some r else s.repos c } := by
  show (if s.stopped = true then some s else _) = _
  rw [h]
  simp

theorem step_unregister (env : SubEnv) (renv : ReplayFn) {s : ServerState}
    (h : s.stopped = false) (i : Nat) :
    step env renv s (Msg.unregister i)
      = some { s with subs := mapDelete s.subs (env i).channel i } := by
  show (if s.stopped = true then some s else _) = _
  rw [h]
  simp

theorem step_publish (env : SubEnv) (renv : ReplayFn) {s : ServerState}
    (h : s.stopped = false) (channels : List String) (e : Event) :
    step env renv s (Msg.publish channels e) = doPublish s channels e := by
  show (if s.stopped = true then some s else doPublish s channels e) = _
  rw [h]
  simp

theorem step_subscribe (env : SubEnv) (renv : ReplayFn) {s : ServerState}
    (h : s.stopped = false) (i : Nat) :
    step env renv s (Msg.subscribe i) = some (doSubscribe env renv s i) := by
  show (if s.stopped = true then some s else some (doSubscribe env renv s i)) = _
  rw [h]
  simp

theorem step_quit (env : SubEnv) (renv : ReplayFn) {s : ServerState}
    (h : s.stopped = false) :
    step env renv s Msg.quit = (closeTable s.paths s.subs).map fun ps =>
      { s with paths := ps, stopped := true } := by
  show (if s.stopped = true then some s else _) = _
  rw [h]
  simp

theorem doSubscribe_subs (env : SubEnv) (renv : ReplayFn) (s : ServerState)
    (i : Nat) :
    (doSubscribe env renv s i).subs = mapAdd s.subs (env i).channel i := by
  unfold doSubscribe
  split
  · split <;> rfl
  · rfl

theorem doSubscribe_paths (env : SubEnv) (renv : ReplayFn) (s : ServerState)
    (i : Nat) : (doSubscribe env renv s i).paths = s.paths := by
  unfold doSubscribe
  split
  · split <;> rfl
  · rfl

theorem doSubscribe_stopped (env : SubEnv) (renv : ReplayFn) (s : ServerState)
    (i : Nat) : (doSubscribe env renv s i).stopped = s.stopped := by
  unfold doSubscribe
  split
  · split <;> rfl
  · rfl

theorem doSubscribe_tasks_some (env : SubEnv) (renv : ReplayFn)
    {s : ServerState} {i r : Nat}
    (hlen : (env i).lastEventId.length > 0)
    (hrep : s.repos (env i).channel = some r) :
    (doSubscribe env renv s i).tasks = s.tasks ++
      [⟨s.nextTid, i, r, (env i).channel, (env i).lastEventId,
        renv r (env i).channel (env i).lastEventId⟩] := by
  unfold doSubscribe
  rw [if_pos hlen, hrep]

theorem doSubscribe_tasks_norepo (env : SubEnv) (renv : ReplayFn)
    {s : ServerState} {i : Nat}
    (hrep : s.repos (env i).channel = none) :
    (doSubscribe env renv s i).tasks = s.tasks := by
  unfold doSubscribe
  split
  · rw [hrep]
  · rfl

theorem doSubscribe_tasks_nolast (env : SubEnv) (renv : ReplayFn)
    {s : ServerState} {i : Nat}
    (hlen : ¬(env i).lastEventId.length > 0) :
    (doSubscribe env renv s i).tasks = s.tasks := by
  unfold doSubscribe
  rw [if_neg hlen]

theorem mapDelete_idem (m : List (String × Finset Nat)) (c : String) (i : Nat) :
    mapDelete (mapDelete m c i) c i = mapDelete m c i := by
  unfold mapDelete
  rw [List.map_map]
  apply List.map_congr_left
  intro kv _
  by_cases h : kv.1 = c <;> simp [Function.comp, h, Finset.erase_idem]

theorem mapDelete_absent {m : List (String × Finset Nat)} {c : String} {i : Nat}
    (h : ∀ p ∈ m, i ∉ p.2) : mapDelete m c i = m := by
  unfold mapDelete
  conv_rhs => rw [← List.map_id m]
  apply List.map_congr_left
  intro kv hkv
  by_cases h1 : kv.1 = c
  · subst h1
    simp [Finset.erase_eq_of_not_mem (h kv hkv)]
  · simp [h1]

/-- Replacing a state's subscription table by an equal one is the identity. -/
theorem subsEta {s : ServerState} {m : List (String × Finset Nat)}
    (h : m = s.subs) : ({ s with subs := m } : ServerState) = s := by
  cases s
  subst h
  rfl

/-! ### Claim theorems -/

/-- C1: for every channel set and event, a publish accepted by the running
dispatcher pushes the event onto the delivery path of every subscription
currently in the subscriber set of each named channel, and leaves untouched
the path of every subscription whose channel differs from every named
channel. -/
theorem publish_delivers_to_members_only (env : SubEnv) (renv : ReplayFn)
    {s : ServerState} (hreach : Reachable env renv s)
    (hrun : s.stopped = false)
    (channels : List String) (hnd : channels.Nodup) (e : Event) :
    ∃ s', step env renv s (Msg.publish channels e) = some s' ∧
      (∀ c ∈ channels, ∀ i ∈ membersOf s.subs c,
        (s'.paths i).buf = (s.paths i).buf ++ [(Origin.live, e)]) ∧
      (∀ i, (env i).channel ∉ channels → s'.paths i = s.paths i) := by
  have hinv := inv_reachable env renv hreach
  have hopen : ∀ i, (s.paths i).closed = false :=
    fun i => (hinv.openPaths hrun i).1
  have hdisj : ∀ c ∈ channels, ∀ c' ∈ channels, c ≠ c' →
      ∀ i, i ∈ membersOf s.subs c → i ∉ membersOf s.subs c' :=
    fun c _ c' _ hne i => membersOf_disjoint env hinv.memChannel hne i
  obtain ⟨ps, hps, hin, hout⟩ :=
    publishPaths_sound e s.subs channels s.paths hnd hdisj hopen
  refine ⟨{ s with paths := ps }, ?_, ?_, ?_⟩
  · rw [step_publish env renv hrun]
    unfold doPublish
    rw [hps]
    rfl
  · intro c hc i hi
    exact (hin c hc i hi).1
  · intro i hic
    exact hout i fun c hc hm =>
      hic ((membersOf_channel env hinv.memChannel hm) ▸ hc)

/-- C3: from any reachable running state, the quit sweep succeeds and closes
the delivery path of every subscription present in the routing table exactly
once (each such path ends closed with close count one), while paths of
subscriptions not in the table are untouched. -/
theorem shutdown_closes_each_registered_path_once (env : SubEnv)
    (renv : ReplayFn) {s : ServerState} (hreach : Reachable env renv s)
    (hrun : s.stopped = false) :
    ∃ s', step env renv s Msg.quit = some s' ∧
      (∀ p ∈ s.subs, ∀ i ∈ p.2,
        (s'.paths i).closed = true ∧ (s'.paths i).closeCount = 1) ∧
      (∀ i, (∀ p ∈ s.subs, i ∉ p.2) → s'.paths i = s.paths i) ∧
      s'.stopped = true := by
  have hinv := inv_reachable env renv hreach
  obtain ⟨ps, hps, hin, hout⟩ := closeTable_sound s.subs s.paths
    (table_pairwise env hinv.keysNodup hinv.memChannel)
    (fun p hp i hi => (hinv.openPaths hrun i).1)
  refine ⟨{ s with paths := ps, stopped := true }, ?_, ?_, ?_, rfl⟩
  · rw [step_quit env renv hrun, hps]
    rfl
  · intro p hp i hi
    have hcnt : (s.paths i).closeCount = 0 := (hinv.openPaths hrun i).2
    have hps' : ps i = { buf := (s.paths i).buf, closed := true, closeCount := (s.paths i).closeCount + 1 } := hin p hp i hi
    constructor
    · show (ps i).closed = true
      rw [hps']
    · show (ps i).closeCount = 1
      rw [hps']
      show (s.paths i).closeCount + 1 = 1
      rw [hcnt]
  · intro i hi
    exact hout i hi

/-- C8: a completed replay task has pushed onto its subscription's delivery
path exactly the finite ordered event sequence produced by its bound history
source, in that order; moreover the task is bound to its subscription's
creation-time channel and last seen id. -/
theorem replay_preserves_history_order (env : SubEnv) (renv : ReplayFn)
    {s : ServerState} (hreach : Reachable env renv s)
    {t : Task} (ht : t ∈ s.tasks) (hdone : t.remaining = []) :
    ((s.paths t.subId).buf.filter fun pr =>
      pr.1 == Origin.replayTask t.tid).map Prod.snd
      = renv t.repoId t.channel t.lastSeenId ∧
    t.channel = (env t.subId).channel ∧
    t.lastSeenId = (env t.subId).lastEventId := by
  have hinv := inv_reachable env renv hreach
  have hp := hinv.taskProgress t ht
  rw [hdone, List.append_nil] at hp
  exact ⟨hp, hinv.taskWf t ht⟩

/-- C9: in every reachable state, a subscription id occurs in the routing
table under at most one channel entry — the channel it was created with —
and entries are indexed by distinct channels, so it occurs in at most one
subscriber set. -/
theorem subscription_in_at_most_one_channel (env : SubEnv) (renv : ReplayFn)
    {s : ServerState} (hreach : Reachable env renv s) :
    (∀ p ∈ s.subs, ∀ q ∈ s.subs, ∀ i, i ∈ p.2 → i ∈ q.2 → p = q) ∧
    (∀ p ∈ s.subs, ∀ i ∈ p.2, (env i).channel = p.1) := by
  have hinv := inv_reachable env renv hreach
  refine ⟨?_, hinv.memChannel⟩
  intro p hp q hq i hip hiq
  exact eq_of_map_nodup hinv.keysNodup hp hq
    ((hinv.memChannel p hp i hip).symm.trans (hinv.memChannel q hq i hiq))

/-- A replay goroutine's step never changes any path's close state. -/
theorem doReplayStep_flags {s s' : ServerState} {tid : Nat}
    (h : doReplayStep s tid = some s') :
    ∀ j, (s'.paths j).closed = (s.paths j).closed ∧
      (s'.paths j).closeCount = (s.paths j).closeCount := by
  unfold doReplayStep at h
  cases hf : s.tasks.find? fun t => t.tid == tid with
  | none =>
    rw [hf] at h
    obtain rfl := Option.some.inj h
    exact fun j => ⟨rfl, rfl⟩
  | some t =>
    rw [hf] at h
    have h2 : (match t.remaining with
      | [] => some s
      | e :: rest =>
        match chanSend (s.paths t.subId) (Origin.replayTask t.tid) e with
        | none => none
        | some p =>
          some { s with
            paths := fun j => if j = t.subId then p else s.paths j,
            tasks := s.tasks.map fun u =>
              if u.tid == tid then { u with remaining := rest } else u })
        = some s' := h
    clear h
    cases hrem : t.remaining with
    | nil =>
      rw [hrem] at h2
      obtain rfl := Option.some.inj h2
      exact fun j => ⟨rfl, rfl⟩
    | cons e rest =>
      rw [hrem] at h2
      have h3 : (match chanSend (s.paths t.subId) (Origin.replayTask t.tid) e with
        | none => none
        | some p =>
          some { s with
            paths := fun j => if j = t.subId then p else s.paths j,
            tasks := s.tasks.map fun u =>
              if u.tid == tid then { u with remaining := rest } else u })
          = some s' := h2
      clear h2
      cases hc : chanSend (s.paths t.subId) (Origin.replayTask t.tid) e with
      | none =>
        rw [hc] at h3
        exact absurd h3 (by simp)
      | some p =>
        rw [hc] at h3
        obtain rfl := Option.some.inj h3
        obtain ⟨hcl, hbuf, hclo, hcc⟩ := chanSend_some hc
        intro j
        show (if j = t.subId then p else s.paths j).closed = (s.paths j).closed ∧
          (if j = t.subId then p else s.paths j).closeCount = (s.paths j).closeCount
        by_cases hj : j = t.subId
        · rw [if_pos hj, hj]
          exact ⟨hclo, hcc⟩
        · rw [if_neg hj]
          exact ⟨rfl, rfl⟩

/-- C4: a subscription accepted by the running dispatcher always joins its
channel's subscriber set; if its last seen id is non-empty and a history
source is registered for its channel, exactly one replay task is started,
bound to that subscription, that source and that last seen id; if no history
source is registered, no task is started and the subscription still joins
the set without error. -/
theorem subscribe_replay_task_behavior (env : SubEnv) (renv : ReplayFn)
    {s : ServerState} (hrun : s.stopped = false) (i : Nat) :
    ∃ s', step env renv s (Msg.subscribe i) = some s' ∧
      i ∈ membersOf s'.subs (env i).channel ∧
      (∀ c, c ≠ (env i).channel → membersOf s'.subs c = membersOf s.subs c) ∧
      (∀ r, (env i).lastEventId.length > 0 →
        s.repos (env i).channel = some r →
        s'.tasks = s.tasks ++
          [⟨s.nextTid, i, r, (env i).channel, (env i).lastEventId,
            renv r (env i).channel (env i).lastEventId⟩]) ∧
      (s.repos (env i).channel = none → s'.tasks = s.tasks) := by
  refine ⟨doSubscribe env renv s i, step_subscribe env renv hrun i,
    ?_, ?_, ?_, ?_⟩
  · rw [doSubscribe_subs, membersOf_mapAdd, if_pos rfl]
    exact Finset.mem_insert_self i _
  · intro c hc
    rw [doSubscribe_subs, membersOf_mapAdd, if_neg hc]
  · intro r hlen hrep
    exact doSubscribe_tasks_some env renv hlen hrep
  · intro hrep
    exact doSubscribe_tasks_norepo env renv hrep

/-- C5: a subscription created with an empty last seen identifier never
starts a replay task — whatever history source may be registered — while
still joining its channel's subscriber set. -/
theorem empty_lastEventId_never_starts_replay (env : SubEnv) (renv : ReplayFn)
    {s : ServerState} (hrun : s.stopped = false) (i : Nat)
    (hempty : (env i).lastEventId = "") :
    ∃ s', step env renv s (Msg.subscribe i) = some s' ∧
      s'.tasks = s.tasks ∧ i ∈ membersOf s'.subs (env i).channel := by
  refine ⟨doSubscribe env renv s i, step_subscribe env renv hrun i, ?_, ?_⟩
  · apply doSubscribe_tasks_nolast
    rw [hempty]
    simp
  · rw [doSubscribe_subs, membersOf_mapAdd, if_pos rfl]
    exact Finset.mem_insert_self i _

/-- C6: unsubscribing is idempotent — running the unregister message twice
in a row gives the same state as running it once, and unsubscribing a
subscription present in no subscriber set leaves the state exactly
unchanged, with no fault either way. -/
theorem unregister_idempotent_noop (env : SubEnv) (renv : ReplayFn)
    {s : ServerState} (hrun : s.stopped = false) (i : Nat) :
    ∃ s1, step env renv s (Msg.unregister i) = some s1 ∧
      step env renv s1 (Msg.unregister i) = some s1 ∧
      ((∀ p ∈ s.subs, i ∉ p.2) → s1 = s) := by
  refine ⟨{ s with subs := mapDelete s.subs (env i).channel i },
    step_unregister env renv hrun i, ?_, ?_⟩
  · have hs1 : ({ s with subs := mapDelete s.subs (env i).channel i }
        : ServerState).stopped = false := hrun
    rw [step_unregister env renv hs1 i]
    have hidem : mapDelete (mapDelete s.subs (env i).channel i)
        (env i).channel i
        = ({ s with subs := mapDelete s.subs (env i).channel i }
            : ServerState).subs :=
      mapDelete_idem s.subs (env i).channel i
    exact congrArg some (subsEta hidem)
  · intro hnone
    exact subsEta (mapDelete_absent hnone)

/-- C7: registering a history source for a channel installs it as that
channel's single source (replacing any prior one) for replays started
afterwards, changes no other channel's source and no routing state, and
leaves every already-running replay task — with the source it was bound to
at subscribe time — untouched; a subscription arriving afterwards on that
channel with a non-empty last seen id is bound to the new source. -/
theorem register_replaces_future_only (env : SubEnv) (renv : ReplayFn)
    {s : ServerState} (hrun : s.stopped = false) (ch : String) (r : Nat) :
    ∃ s', step env renv s (Msg.register ch r) = some s' ∧
      s'.repos ch = some r ∧
      (∀ c, c ≠ ch → s'.repos c = s.repos c) ∧
      s'.tasks = s.tasks ∧ s'.subs = s.subs ∧ s'.paths = s.paths ∧
      (∀ i, (env i).channel = ch → (env i).lastEventId.length > 0 →
        ∃ s'', step env renv s' (Msg.subscribe i) = some s'' ∧
          s''.tasks = s'.tasks ++
            [⟨s'.nextTid, i, r, (env i).channel, (env i).lastEventId,
              renv r (env i).channel (env i).lastEventId⟩]) := by
  refine ⟨{ s with repos := fun c => if c = ch then some r else s.repos c },
    step_register env renv hrun ch r, if_pos rfl, ?_, rfl, rfl, rfl, ?_⟩
  · intro c hc
    exact if_neg hc
  · intro i hchan hlen
    have hs' : ({ s with repos := fun c => if c = ch then some r else s.repos c } : ServerState).stopped = false := hrun
    refine ⟨_, step_subscribe env renv hs' i, ?_⟩
    apply doSubscribe_tasks_some env renv hlen
    show (if (env i).channel = ch then some r
      else s.repos (env i).channel) = some r
    rw [if_pos hchan]

/-- C10: unsubscribing only removes the subscription from its channel's
subscriber set — its delivery path, every other subscription's set entry and
every history-source registration are untouched and no path is closed — and
among all dispatcher and replay actions only the quit message ever changes
any path's close state. -/
theorem unregister_frame_and_only_shutdown_closes (env : SubEnv)
    (renv : ReplayFn) {s : ServerState} (hrun : s.stopped = false) (i : Nat) :
    (∃ s1, step env renv s (Msg.unregister i) = some s1 ∧
      s1.paths = s.paths ∧ s1.repos = s.repos ∧ s1.tasks = s.tasks ∧
      (∀ c, membersOf s1.subs c =
        if c = (env i).channel then (membersOf s.subs c).erase i
        else membersOf s.subs c)) ∧
    (∀ (m : Msg) (s' : ServerState), m ≠ Msg.quit →
      step env renv s m = some s' →
      ∀ j, (s'.paths j).closed = (s.paths j).closed ∧
        (s'.paths j).closeCount = (s.paths j).closeCount) := by
  constructor
  · refine ⟨{ s with subs := mapDelete s.subs (env i).channel i },
      step_unregister env renv hrun i, rfl, rfl, rfl, ?_⟩
    intro c
    exact membersOf_mapDelete s.subs (env i).channel i c
  · intro m s' hm hstep j
    cases m with
    | register ch r =>
      rw [step_register env renv hrun ch r] at hstep
      obtain rfl := Option.some.inj hstep
      exact ⟨rfl, rfl⟩
    | unregister k =>
      rw [step_unregister env renv hrun k] at hstep
      obtain rfl := Option.some.inj hstep
      exact ⟨rfl, rfl⟩
    | publish channels e =>
      rw [step_publish env renv hrun channels e] at hstep
      obtain ⟨ps, hps, rfl⟩ := Option.map_eq_some'.mp hstep
      obtain ⟨n, _, hcl, hcc⟩ := publishPaths_out _ _ _ _ _ hps j
      exact ⟨hcl, hcc⟩
    | subscribe k =>
      rw [step_subscribe env renv hrun k] at hstep
      obtain rfl := Option.some.inj hstep
      rw [doSubscribe_paths]
      exact ⟨rfl, rfl⟩
    | quit => exact absurd rfl hm
    | replayStep tid =>
      exact doReplayStep_flags hstep j

/-- C2 (code bug): the spec requires that pushing an event to a subscription
whose delivery path is already closed be a safe no-op, never a crash.  In
`replay`, however, the push `sub.out <- ev` is a Go channel send, and
sending on a closed channel is a runtime panic.  Concretely: after shutdown
has closed subscription 0's path while its replay task still holds pending
events, the task's next push panics (modelled as `none`). -/
theorem replay_push_after_shutdown_panics :
    Reachable env0 renv0 wBug ∧ wBug.stopped = true ∧
    (wBug.paths 0).closed = true ∧
    (∃ t ∈ wBug.tasks, t.subId = 0 ∧ t.remaining ≠ []) ∧
    step env0 renv0 wBug (Msg.replayStep 0) = none :=
  ⟨⟨msgsBug, rfl⟩, rfl, rfl, by decide, rfl⟩

/-- Witness for `publish_delivers_to_members_only`: at the concrete state
`w1`, publishing event "9" to channel "news". -/
theorem publish_delivers_witness :
    Reachable env0 renv0 w1 ∧ w1.stopped = false ∧
      (["news"] : List String).Nodup ∧
      (∃ s', step env0 renv0 w1 (Msg.publish ["news"] ⟨"9"⟩) = some s' ∧
        (∀ c ∈ ["news"], ∀ i ∈ membersOf w1.subs c,
          (s'.paths i).buf = (w1.paths i).buf ++ [(Origin.live, ⟨"9"⟩)]) ∧
        (∀ i, (env0 i).channel ∉ ["news"] → s'.paths i = w1.paths i)) :=
  ⟨⟨msgs1, rfl⟩, rfl, by decide,
    publish_delivers_to_members_only env0 renv0 ⟨msgs1, rfl⟩ rfl ["news"]
      (by decide) ⟨"9"⟩⟩

/-- Witness for `shutdown_closes_each_registered_path_once` at the concrete
state `w1`. -/
theorem shutdown_closes_witness :
    Reachable env0 renv0 w1 ∧ w1.stopped = false ∧
      (∃ s', step env0 renv0 w1 Msg.quit = some s' ∧
        (∀ p ∈ w1.subs, ∀ i ∈ p.2,
          (s'.paths i).closed = true ∧ (s'.paths i).closeCount = 1) ∧
        (∀ i, (∀ p ∈ w1.subs, i ∉ p.2) → s'.paths i = w1.paths i) ∧
        s'.stopped = true) :=
  ⟨⟨msgs1, rfl⟩, rfl,
    shutdown_closes_each_registered_path_once env0 renv0 ⟨msgs1, rfl⟩ rfl⟩

/-- Witness for `subscribe_replay_task_behavior` at the concrete state `w1`
with subscription 0. -/
theorem subscribe_replay_witness :
    w1.stopped = false ∧
      (∃ s', step env0 renv0 w1 (Msg.subscribe 0) = some s' ∧
        0 ∈ membersOf s'.subs (env0 0).channel ∧
        (∀ c, c ≠ (env0 0).channel →
          membersOf s'.subs c = membersOf w1.subs c) ∧
        (∀ r, (env0 0).lastEventId.length > 0 →
          w1.repos (env0 0).channel = some r →
          s'.tasks = w1.tasks ++
            [⟨w1.nextTid, 0, r, (env0 0).channel, (env0 0).lastEventId,
              renv0 r (env0 0).channel (env0 0).lastEventId⟩]) ∧
        (w1.repos (env0 0).channel = none → s'.tasks = w1.tasks)) :=
  ⟨rfl, subscribe_replay_task_behavior env0 renv0 rfl 0⟩

/-- Witness for `empty_lastEventId_never_starts_replay`: subscription 1 has
an empty last seen id, and a repository is registered for its channel in
`w5`, yet no replay task starts. -/
theorem empty_lastEventId_witness :
    w5.stopped = false ∧ (env0 1).lastEventId = "" ∧
      w5.repos (env0 1).channel = some 1 ∧
      (∃ s', step env0 renv0 w5 (Msg.subscribe 1) = some s' ∧
        s'.tasks = w5.tasks ∧ 1 ∈ membersOf s'.subs (env0 1).channel) :=
  ⟨rfl, rfl, rfl, empty_lastEventId_never_starts_replay env0 renv0 rfl 1 rfl⟩

/-- Witness for `unregister_idempotent_noop` at the concrete state `w1` with
subscription 0. -/
theorem unregister_idempotent_witness :
    w1.stopped = false ∧
      (∃ s1, step env0 renv0 w1 (Msg.unregister 0) = some s1 ∧
        step env0 renv0 s1 (Msg.unregister 0) = some s1 ∧
        ((∀ p ∈ w1.subs, 0 ∉ p.2) → s1 = w1)) :=
  ⟨rfl, unregister_idempotent_noop env0 renv0 rfl 0⟩

/-- Witness for `register_replaces_future_only` from the initial state,
registering repository 0 for "news". -/
theorem register_replaces_witness :
    initState.stopped = false ∧
      (∃ s', step env0 renv0 initState (Msg.register "news" 0) = some s' ∧
        s'.repos "news" = some 0 ∧
        (∀ c, c ≠ "news" → s'.repos c = initState.repos c) ∧
        s'.tasks = initState.tasks ∧ s'.subs = initState.subs ∧
        s'.paths = initState.paths ∧
        (∀ i, (env0 i).channel = "news" → (env0 i).lastEventId.length > 0 →
          ∃ s'', step env0 renv0 s' (Msg.subscribe i) = some s'' ∧
            s''.tasks = s'.tasks ++
              [⟨s'.nextTid, i, 0, (env0 i).channel, (env0 i).lastEventId,
                renv0 0 (env0 i).channel (env0 i).lastEventId⟩])) :=
  ⟨rfl, register_replaces_future_only env0 renv0 rfl "news" 0⟩

/-- Witness for `replay_preserves_history_order`: after the replay task of
subscription 0 runs to completion in `wDone`, its pushes are exactly the
history sequence for ("news", "5"). -/
theorem replay_order_witness :
    Reachable env0 renv0 wDone ∧ tDone ∈ wDone.tasks ∧ tDone.remaining = [] ∧
      (((wDone.paths tDone.subId).buf.filter fun pr =>
          pr.1 == Origin.replayTask tDone.tid).map Prod.snd
        = renv0 tDone.repoId tDone.channel tDone.lastSeenId ∧
       tDone.channel = (env0 tDone.subId).channel ∧
       tDone.lastSeenId = (env0 tDone.subId).lastEventId) :=
  ⟨⟨msgsDone, rfl⟩, by decide, rfl,
    replay_preserves_history_order env0 renv0 ⟨msgsDone, rfl⟩ (by decide) rfl⟩

/-- Witness for `subscription_in_at_most_one_channel` at the concrete state
`w1`. -/
theorem one_channel_witness :
    Reachable env0 renv0 w1 ∧
      ((∀ p ∈ w1.subs, ∀ q ∈ w1.subs, ∀ i, i ∈ p.2 → i ∈ q.2 → p = q) ∧
       (∀ p ∈ w1.subs, ∀ i ∈ p.2, (env0 i).channel = p.1)) :=
  ⟨⟨msgs1, rfl⟩, subscription_in_at_most_one_channel env0 renv0 ⟨msgs1, rfl⟩⟩

/-- Witness for `unregister_frame_and_only_shutdown_closes` at the concrete
state `w1` with subscription 0. -/
theorem unregister_frame_witness :
    w1.stopped = false ∧
      ((∃ s1, step env0 renv0 w1 (Msg.unregister 0) = some s1 ∧
        s1.paths = w1.paths ∧ s1.repos = w1.repos ∧ s1.tasks = w1.tasks ∧
        (∀ c, membersOf s1.subs c =
          if c = (env0 0).channel then (membersOf w1.subs c).erase 0
          else membersOf w1.subs c)) ∧
      (∀ (m : Msg) (s' : ServerState), m ≠ Msg.quit →
        step env0 renv0 w1 m = some s' →
        ∀ j, (s'.paths j).closed = (w1.paths j).closed ∧
          (s'.paths j).closeCount = (w1.paths j).closeCount)) :=
  ⟨rfl, unregister_frame_and_only_shutdown_closes env0 renv0 rfl 0⟩

end Eventsource
